import Mathlib

/-!
# Verification of the terminal Tower-of-Hanoi program

Shallow embedding of `src/main.rs`: the `Tower` state (three pegs, each a
`Vec<u32>` whose *last* element is the topmost disk), the recursive solver
(`move_stack` / `solve`), the single-disk move (`move_peg`, whose
`pop().unwrap()` on an empty peg is a panic, modelled as `Option.none`),
the frame renderer (`get_layer_string` and the `Display` impl), and the
summary message printed by `main`.
-/

/-- Rust `enum Column { First, Second, Third }`. -/
inductive Column where
  | First
  | Second
  | Third
deriving DecidableEq, Repr

/-- Rust `enum LogLevel { None, Minimal, All }` (`None` renamed to avoid
clashing with `Option.none` notation). -/
inductive LogLevel where
  | LNone
  | Minimal
  | All
deriving DecidableEq, Repr

/-- Rust `Column::get_value`, returning the peg index (0, 1, 2).
The Rust function returns a `usize` used to index a 3-element array, so we
use `Fin 3`. -/
def Column.get_value : Column → Fin 3
  | Column.First => 0
  | Column.Second => 1
  | Column.Third => 2

/-- Rust `struct Tower`.  `state : [Vec<u32>; 3]` becomes a function from
the peg index to the list of disk sizes, *bottom first* (the last list
element is the topmost disk, matching `Vec` with `push`/`pop` at the end). -/
@[ext]
structure Tower where
  height : Nat
  print_delay : Nat
  state : Fin 3 → List Nat

/-- The contents of the first peg built by `Tower::new`: the Rust loop
`for i in 0..height { starting_col.push(height - i) }`, i.e.
`[height, height-1, …, 1]` bottom to top. -/
def startingCol (height : Nat) : List Nat :=
  (List.range height).map (fun i => height - i)

/-- Rust `Tower::new(height, delay)`: all disks on the first peg, the other
two pegs empty. -/
def Tower.new (height delay : Nat) : Tower :=
  { height := height
    print_delay := delay
    state := fun i => if i = 0 then startingCol height else [] }

/-- Rust `Tower::move_peg(from, to)`:
`let val = self.state[from].pop().unwrap(); self.state[to].push(val);`.
`pop` removes and returns the *last* element of the `Vec`; `unwrap` on an
empty peg is a panic, modelled by `none`.  The two array-slot mutations are
modelled sequentially, exactly as in the Rust code (so `from = to` would be
a net no-op, as in Rust). -/
def Tower.move_peg (t : Tower) (from_ to_ : Column) : Option Tower :=
  let f := from_.get_value
  let g := to_.get_value
  match (t.state f).getLast? with
  | none => none
  | some val =>
      let popped : Fin 3 → List Nat :=
        fun i => if i = f then (t.state f).dropLast else t.state i
      some { t with state := fun i => if i = g then popped g ++ [val] else popped i }

/-- Rust `Tower::move_stack(size, start_col, target_col, aux_col)`:
```
if size > 0 {
    self.move_stack(size - 1, start_col, aux_col, target_col);
    self.move_and_print(start_col, target_col);
    self.move_stack(size - 1, aux_col, target_col, start_col);
}
```
The `size > 0` branch corresponds to the `m + 1` case (`m = size - 1`).
`move_and_print` performs `move_peg` and then the terminal redraw and the
sleep; only the `move_peg` state change is modelled. -/
def Tower.move_stack (t : Tower) (size : Nat) (start_col target_col aux_col : Column) :
    Option Tower :=
  match size with
  | 0 => some t
  | m + 1 =>
      (t.move_stack m start_col aux_col target_col).bind fun t1 =>
        (t1.move_peg start_col target_col).bind fun t2 =>
          t2.move_stack m aux_col target_col start_col

/-- Rust `Tower::solve`:
`self.move_stack(self.height, &Column::First, &Column::Third, &Column::Second)`. -/
def Tower.solve (t : Tower) : Option Tower :=
  t.move_stack t.height Column.First Column.Third Column.Second

/-- The sequence of `(from, to)` single-disk moves that
`move_stack size start target aux` performs, in order. -/
def hanoiMoves (size : Nat) (start_col target_col aux_col : Column) :
    List (Column × Column) :=
  match size with
  | 0 => []
  | m + 1 =>
      hanoiMoves m start_col aux_col target_col
        ++ [(start_col, target_col)]
        ++ hanoiMoves m aux_col target_col start_col

/-- Apply a list of single-disk moves in order, failing if any `move_peg`
fails. -/
def applyMoves (t : Tower) : List (Column × Column) → Option Tower
  | [] => some t
  | (f, g) :: rest => (t.move_peg f g).bind fun t' => applyMoves t' rest

/-- A peg is well-stacked: disk sizes strictly decrease from the bottom of
the list toward the top (last element), i.e. the smallest disk is on top. -/
def pegOrdered (l : List Nat) : Prop :=
  List.Pairwise (fun x y => y < x) l

instance (l : List Nat) : Decidable (pegOrdered l) := by
  unfold pegOrdered; infer_instance

/-- Invariant: every peg of the tower is well-stacked. -/
def towerOrdered (t : Tower) : Prop :=
  ∀ i : Fin 3, pegOrdered (t.state i)

/-- Rust `const DELAY_MS: u64 = 100`. -/
def DELAY_MS : Nat := 100

/-- Rust `const TOWER_SIZE: u32 = 6`. -/
def TOWER_SIZE : Nat := 6

/-- `string.parse::<u32>()`: a decimal natural that must fit in `u32`. -/
def parse_u32 (s : String) : Option Nat :=
  match s.toNat? with
  | some v => if v < 2 ^ 32 then some v else none
  | none => none

/-- Rust `get_delay(args, index)`; `None`/parse failure exits the process,
modelled as `none`. -/
def get_delay (args : List String) (index : Nat) : Option Nat :=
  match args.get? index with
  | none => none
  | some s => parse_u32 s

/-- Rust `get_height(args, index)`; same shape as `get_delay`. -/
def get_height (args : List String) (index : Nat) : Option Nat :=
  match args.get? index with
  | none => none
  | some s => parse_u32 s

/-- Rust `get_log(args, index)`: case-insensitive match on
`all`/`minimal`/`none`; anything else exits, modelled as `none`. -/
def get_log (args : List String) (index : Nat) : Option LogLevel :=
  match args.get? index with
  | none => none
  | some s =>
      if s.toLower = "all" then some LogLevel.All
      else if s.toLower = "minimal" then some LogLevel.Minimal
      else if s.toLower = "none" then some LogLevel.LNone
      else none

/-- The `for arg_i in (0..(args.len() / 2)).map(|i| i * 2 + 1)` loop body of
`get_parameters`, processed index by index.  `args.get(arg_i) == None`
breaks with the parameters gathered so far; `-H`/`--help` and unknown flags
exit (`none`). -/
def get_parameters_loop (args : List String) :
    List Nat → Nat × Nat × LogLevel → Option (Nat × Nat × LogLevel)
  | [], acc => some acc
  | arg_i :: rest, (delay, height, log) =>
      match args.get? arg_i with
      | none => some (delay, height, log)
      | some arg =>
          if arg = "-H" ∨ arg = "--help" then none
          else if arg = "-D" ∨ arg = "--delay" then
            match get_delay args (arg_i + 1) with
            | none => none
            | some v => get_parameters_loop args rest (v, height, log)
          else if arg = "-N" ∨ arg = "--height" then
            match get_height args (arg_i + 1) with
            | none => none
            | some v => get_parameters_loop args rest (delay, v, log)
          else if arg = "-L" ∨ arg = "--loglevel" then
            match get_log args (arg_i + 1) with
            | none => none
            | some v => get_parameters_loop args rest (delay, height, v)
          else none

/-- Rust `get_parameters(args)`: defaults `(DELAY_MS, TOWER_SIZE, Minimal)`,
returned immediately when fewer than two arguments are present (i.e. only
the program name); otherwise the flag loop runs.  `none` models
`process::exit(0)`. -/
def get_parameters (args : List String) : Option (Nat × Nat × LogLevel) :=
  if args.length < 2 then some (DELAY_MS, TOWER_SIZE, LogLevel.Minimal)
  else
    get_parameters_loop args ((List.range (args.length / 2)).map (fun i => i * 2 + 1))
      (DELAY_MS, TOWER_SIZE, LogLevel.Minimal)

/-- `2u32.pow(height)`: the mathematical power reduced modulo `2^32`
(u32 multiplication wraps in release builds; in debug builds the overflow
panics instead, so for `height ≥ 32` neither build prints `2^height − 1`). -/
def pow2_u32 (height : Nat) : Nat := 2 ^ height % 2 ^ 32

/-- The number printed by `main`: `2u32.pow(tower.height) - 1`, with u32
wrapping subtraction. -/
def completedMoves (height : Nat) : Nat := (pow2_u32 height + 2 ^ 32 - 1) % 2 ^ 32

/-- The completion line `println!("Completed in ... moves")` printed at
loglevels `Minimal` and `All`. -/
def completedMessage (height : Nat) : String :=
  "Completed in " ++ toString (completedMoves height) ++ " moves"

/-- The summary lines `main` prints after `solve`, by loglevel. -/
def summaryLines (height delay : Nat) : LogLevel → List String
  | LogLevel.LNone => []
  | LogLevel.Minimal => [completedMessage height]
  | LogLevel.All =>
      [completedMessage height,
       "Tower height: " ++ toString height ++ " pegs",
       "Delay: ~" ++ toString delay ++ "ms"]

theorem applyMoves_append (t : Tower) (l1 l2 : List (Column × Column)) :
    applyMoves t (l1 ++ l2) = (applyMoves t l1).bind fun t' => applyMoves t' l2 := by
  induction l1 generalizing t with
  | nil => simp [applyMoves]
  | cons p rest ih =>
      obtain ⟨f, g⟩ := p
      simp only [List.cons_append, applyMoves]
      cases t.move_peg f g with
      | none => simp
      | some t' => simp [ih]

/-- `move_stack` performs exactly the move sequence `hanoiMoves`. -/
theorem move_stack_eq_applyMoves (n : Nat) (s tg a : Column) (t : Tower) :
    t.move_stack n s tg a = applyMoves t (hanoiMoves n s tg a) := by
  induction n generalizing s tg a t with
  | zero => simp [Tower.move_stack, hanoiMoves, applyMoves]
  | succ m ih =>
      simp only [Tower.move_stack, hanoiMoves, applyMoves_append, ih]
      cases applyMoves t (hanoiMoves m s a tg) with
      | none => simp
      | some t1 =>
          simp only [Option.bind_some, applyMoves]
          cases t1.move_peg s tg with
          | none => simp
          | some t2 => simp

theorem hanoiMoves_length (n : Nat) (s tg a : Column) :
    (hanoiMoves n s tg a).length = 2 ^ n - 1 := by
  induction n generalizing s tg a with
  | zero => simp [hanoiMoves]
  | succ m ih =>
      simp only [hanoiMoves, List.length_append, List.length_cons, List.length_nil, ih]
      have h : 1 ≤ 2 ^ m := Nat.one_le_two_pow
      omega

/-- Any three pairwise distinct indices exhaust `Fin 3`. -/
theorem fin3_cases (x y z i : Fin 3) (hxy : x ≠ y) (hxz : x ≠ z) (hyz : y ≠ z) :
    i = x ∨ i = y ∨ i = z := by
  fin_cases x <;> fin_cases y <;> fin_cases z <;> fin_cases i <;> simp_all

theorem startingCol_succ (h : Nat) : startingCol (h + 1) = (h + 1) :: startingCol h := by
  simp only [startingCol, List.range_succ_eq_map, List.map_cons, List.map_map, Nat.sub_zero]
  congr 1
  apply List.map_congr_left
  intro i _
  simp only [Function.comp_apply]
  omega

theorem startingCol_length (h : Nat) : (startingCol h).length = h := by
  simp [startingCol]

theorem mem_startingCol (h x : Nat) : x ∈ startingCol h ↔ 1 ≤ x ∧ x ≤ h := by
  induction h with
  | zero => simp [startingCol]; omega
  | succ k ih =>
      rw [startingCol_succ]
      simp only [List.mem_cons, ih]
      omega

theorem startingCol_pairwise (h : Nat) :
    List.Pairwise (fun x y => y < x) (startingCol h) := by
  induction h with
  | zero => simp [startingCol]
  | succ k ih =>
      rw [startingCol_succ]
      refine List.pairwise_cons.mpr ⟨?_, ih⟩
      intro y hy
      have := (mem_startingCol k y).mp hy
      omega

theorem startingCol_head? (h : Nat) :
    (startingCol h).head? = (if h = 0 then none else some h) := by
  cases h with
  | zero => simp [startingCol]
  | succ k => rw [startingCol_succ]; simp

theorem startingCol_getLast? (h : Nat) :
    (startingCol h).getLast? = (if h = 0 then none else some 1) := by
  induction h with
  | zero => simp [startingCol]
  | succ k ih =>
      rw [startingCol_succ]
      cases k with
      | zero => simp [startingCol]
      | succ j =>
          rw [startingCol_succ] at ih ⊢
          rw [List.getLast?_cons_cons]
          simpa using ih

/-- Effect of a successful `move_peg` when the source peg is `L` with `d` on
top: `d` is popped off the source and pushed onto the destination, and no
other peg changes. -/
theorem move_peg_some (t : Tower) (f g : Column) (hfg : f.get_value ≠ g.get_value)
    (L : List Nat) (d : Nat) (hf : t.state f.get_value = L ++ [d]) :
    ∃ t', t.move_peg f g = some t' ∧
      t'.height = t.height ∧ t'.print_delay = t.print_delay ∧
      t'.state f.get_value = L ∧
      t'.state g.get_value = t.state g.get_value ++ [d] ∧
      ∀ i, i ≠ f.get_value → i ≠ g.get_value → t'.state i = t.state i := by
  have h1 : (t.state f.get_value).getLast? = some d := by
    rw [hf]; exact List.getLast?_concat _
  have h2 : (t.state f.get_value).dropLast = L := by
    rw [hf]; simp
  simp only [Tower.move_peg, h1]
  refine ⟨_, rfl, rfl, rfl, ?_, ?_, ?_⟩
  · simp [hfg, h2]
  · simp [Ne.symm hfg]
  · intro i hif hig
    simp [hif, hig]

/-- Effect of `move_stack n` when the top `n` disks of the start peg are
`stack`: the whole block `stack` ends up on top of the target peg, the aux
peg is restored, and height/delay are unchanged.  (No ordering assumptions
are needed to compute the resulting state.) -/
theorem move_stack_some (n : Nat) (s tg a : Column) (t : Tower) (L stack : List Nat)
    (hst : s.get_value ≠ tg.get_value) (hsa : s.get_value ≠ a.get_value)
    (hta : tg.get_value ≠ a.get_value)
    (hlen : stack.length = n) (hf : t.state s.get_value = L ++ stack) :
    ∃ t', t.move_stack n s tg a = some t' ∧
      t'.height = t.height ∧ t'.print_delay = t.print_delay ∧
      t'.state s.get_value = L ∧
      t'.state tg.get_value = t.state tg.get_value ++ stack ∧
      t'.state a.get_value = t.state a.get_value := by
  induction n generalizing s tg a t L stack with
  | zero =>
      obtain rfl : stack = [] := List.length_eq_zero.mp hlen
      exact ⟨t, rfl, rfl, rfl, by simpa using hf, by simp, rfl⟩
  | succ m ih =>
      cases stack with
      | nil => simp at hlen
      | cons dsk ts =>
          have hts : ts.length = m := by simpa using hlen
          have hf1 : t.state s.get_value = (L ++ [dsk]) ++ ts := by
            rw [hf]; simp
          obtain ⟨t1, e1, eh1, ed1, es1, ea1, etg1⟩ :=
            ih s a tg t (L ++ [dsk]) ts hsa hst (Ne.symm hta) hts hf1
          obtain ⟨t2, e2, eh2, ed2, es2, eg2, eo2⟩ :=
            move_peg_some t1 s tg hst L dsk es1
          have ht2a : t2.state a.get_value = t.state a.get_value ++ ts := by
            rw [eo2 a.get_value (Ne.symm hsa) (Ne.symm hta), ea1]
          obtain ⟨t3, e3, eh3, ed3, es3, etg3, ea3⟩ :=
            ih a tg s t2 (t.state a.get_value) ts (Ne.symm hta) (Ne.symm hsa) (Ne.symm hst)
              hts ht2a
          refine ⟨t3, ?_, by rw [eh3, eh2, eh1], by rw [ed3, ed2, ed1], ?_, ?_, es3⟩
          · simp only [Tower.move_stack, e1, Option.some_bind, e2, e3]
          · rw [ea3, es2]
          · rw [etg3, eg2, etg1]
            simp

/-- Master run lemma: if the top `n` disks of the start peg form the block
`stack`, every peg is well-stacked, and every disk of `stack` is smaller
than every disk on the target and auxiliary pegs, then every prefix of the
move sequence `hanoiMoves n s tg a` executes successfully and leaves every
peg well-stacked. -/
theorem hanoi_run_ordered (n : Nat) (s tg a : Column) (t : Tower) (L stack : List Nat)
    (hst : s.get_value ≠ tg.get_value) (hsa : s.get_value ≠ a.get_value)
    (hta : tg.get_value ≠ a.get_value)
    (hlen : stack.length = n) (hf : t.state s.get_value = L ++ stack)
    (hord : towerOrdered t)
    (htg : ∀ x ∈ stack, ∀ y ∈ t.state tg.get_value, x < y)
    (ha : ∀ x ∈ stack, ∀ y ∈ t.state a.get_value, x < y) :
    ∀ pre suf, hanoiMoves n s tg a = pre ++ suf →
      ∃ t', applyMoves t pre = some t' ∧ towerOrdered t' := by
  induction n generalizing s tg a t L stack with
  | zero =>
      intro pre suf hsplit
      simp only [hanoiMoves] at hsplit
      obtain ⟨rfl, rfl⟩ := List.append_eq_nil.mp hsplit.symm
      exact ⟨t, rfl, hord⟩
  | succ m ih =>
      intro pre suf hsplit
      cases stack with
      | nil => simp at hlen
      | cons dsk ts =>
        have hts : ts.length = m := by simpa using hlen
        have hf1 : t.state s.get_value = (L ++ [dsk]) ++ ts := by rw [hf]; simp
        have hs_ord : List.Pairwise (fun x y => y < x) (L ++ dsk :: ts) := by
          have := hord s.get_value
          rwa [pegOrdered, hf] at this
        have hdsk_ts : ∀ x ∈ ts, x < dsk :=
          fun x hx =>
            (List.pairwise_cons.mp (List.pairwise_append.mp hs_ord).2.1).1 x hx
        have hL : ∀ y ∈ L, ∀ x ∈ dsk :: ts, x < y :=
          fun y hy x hx => (List.pairwise_append.mp hs_ord).2.2 y hy x hx
        have htg_ts : ∀ x ∈ ts, ∀ y ∈ t.state a.get_value, x < y :=
          fun x hx => ha x (List.mem_cons_of_mem _ hx)
        have haux_ts : ∀ x ∈ ts, ∀ y ∈ t.state tg.get_value, x < y :=
          fun x hx => htg x (List.mem_cons_of_mem _ hx)
        have ih1 := ih s a tg t (L ++ [dsk]) ts hsa hst (Ne.symm hta) hts hf1 hord
          htg_ts haux_ts
        simp only [hanoiMoves] at hsplit
        rw [List.append_assoc, List.singleton_append] at hsplit
        rcases List.append_eq_append_iff.mp hsplit with ⟨mid, hpre, hrest⟩ | ⟨c, hT1, hsuf⟩
        · -- `pre` extends past the first recursive call
          cases mid with
          | nil =>
              -- `pre` is exactly the first recursive call's move list
              obtain ⟨t', e', hinv'⟩ := ih1 (hanoiMoves m s a tg) [] (by simp)
              refine ⟨t', ?_, hinv'⟩
              rw [hpre, List.append_nil]
              exact e'
          | cons p mid' =>
              rw [List.cons_append] at hrest
              obtain ⟨rfl, hT2⟩ := List.cons_eq_cons.mp hrest
              -- run the first recursive call completely, to `t1`
              obtain ⟨t1, e1, eh1, ed1, es1, ea1, etg1⟩ :=
                move_stack_some m s a tg t (L ++ [dsk]) ts hsa hst (Ne.symm hta) hts hf1
              obtain ⟨t1', e1', hinv1⟩ := ih1 (hanoiMoves m s a tg) [] (by simp)
              have e1a : applyMoves t (hanoiMoves m s a tg) = some t1 := by
                rw [← move_stack_eq_applyMoves]; exact e1
              have ht11 : t1' = t1 := by
                rw [e1a] at e1'
                exact (Option.some.inj e1').symm
              subst ht11
              -- the single move `(s, tg)` of disk `dsk`
              obtain ⟨t2, e2, eh2, ed2, es2, eg2, eo2⟩ :=
                move_peg_some t1' s tg hst L dsk es1
              have ht2a : t2.state a.get_value = t.state a.get_value ++ ts := by
                rw [eo2 a.get_value (Ne.symm hsa) (Ne.symm hta), ea1]
              have ht2tg : t2.state tg.get_value = t.state tg.get_value ++ [dsk] := by
                rw [eg2, etg1]
              have hinv2 : towerOrdered t2 := by
                intro i
                rcases fin3_cases s.get_value tg.get_value a.get_value i hst hsa hta with
                  rfl | rfl | rfl
                · rw [pegOrdered, es2]
                  exact (List.pairwise_append.mp hs_ord).1
                · rw [pegOrdered, ht2tg]
                  refine List.pairwise_append.mpr ⟨hord tg.get_value, by simp, ?_⟩
                  intro y hy b hb
                  rw [List.mem_singleton] at hb
                  rw [hb]
                  exact htg dsk (List.mem_cons_self _ _) y hy
                · rw [pegOrdered, ht2a]
                  refine List.pairwise_append.mpr ⟨hord a.get_value, ?_, ?_⟩
                  · exact (List.pairwise_append.mp hs_ord).2.1.of_cons
                  · intro y hy x hx
                    exact ha x (List.mem_cons_of_mem _ hx) y hy
              have htg2 : ∀ x ∈ ts, ∀ y ∈ t2.state tg.get_value, x < y := by
                intro x hx y hy
                rw [ht2tg, List.mem_append] at hy
                rcases hy with hy | hy
                · exact htg x (List.mem_cons_of_mem _ hx) y hy
                · rw [List.mem_singleton] at hy
                  subst hy
                  exact hdsk_ts x hx
              have ha2 : ∀ x ∈ ts, ∀ y ∈ t2.state s.get_value, x < y := by
                intro x hx y hy
                rw [es2] at hy
                exact hL y hy x (List.mem_cons_of_mem _ hx)
              obtain ⟨t3, e3, hinv3⟩ :=
                ih a tg s t2 (t.state a.get_value) ts (Ne.symm hta) (Ne.symm hsa)
                  (Ne.symm hst) hts ht2a hinv2 htg2 ha2 mid' suf hT2
              refine ⟨t3, ?_, hinv3⟩
              rw [hpre, applyMoves_append, e1a, Option.some_bind]
              simp only [applyMoves, e2, Option.some_bind]
              exact e3
        · -- `pre` is a prefix of the first recursive call's move list
          obtain ⟨t', e', hinv'⟩ := ih1 pre c hT1
          exact ⟨t', e', hinv'⟩

/-- `solve` on a fresh tower succeeds and yields the fully transferred
state: the third peg gets the whole starting column, the others end empty. -/
theorem solve_run (h d : Nat) :
    ∃ t', Tower.solve (Tower.new h d) = some t' ∧
      t'.height = h ∧ t'.print_delay = d ∧
      t'.state Column.First.get_value = [] ∧
      t'.state Column.Third.get_value = startingCol h ∧
      t'.state Column.Second.get_value = [] := by
  obtain ⟨t', e, eh, ed, es, etg, ea⟩ :=
    move_stack_some h Column.First Column.Third Column.Second (Tower.new h d)
      [] (startingCol h) (by decide) (by decide) (by decide)
      (startingCol_length h) (by simp [Tower.new, Column.get_value])
  refine ⟨t', e, ?_, ?_, es, ?_, ?_⟩
  · simpa [Tower.new] using eh
  · simpa [Tower.new] using ed
  · simpa [Tower.new, Column.get_value] using etg
  · simpa [Tower.new, Column.get_value] using ea

/-- C1: For every height `h ≥ 0`, calling `solve` on a tower built by
`new(h, delay)` performs exactly `2^h − 1` single-disk moves (invocations of
`move_peg`): the run of `solve` is exactly the move sequence
`hanoiMoves h First Third Second`, every one of those moves is actually
performed (the run returns `some`), and that sequence has length `2^h − 1`. -/
theorem solve_move_count (h d : Nat) :
    (hanoiMoves h Column.First Column.Third Column.Second).length = 2 ^ h - 1 ∧
    Tower.solve (Tower.new h d) =
      applyMoves (Tower.new h d) (hanoiMoves h Column.First Column.Third Column.Second) ∧
    (Tower.solve (Tower.new h d)).isSome := by
  refine ⟨hanoiMoves_length h _ _ _, ?_, ?_⟩
  · exact move_stack_eq_applyMoves h Column.First Column.Third Column.Second (Tower.new h d)
  · obtain ⟨t', e, -⟩ := solve_run h d
    simp [e]

/-- C2: After `solve` completes on `new(h, delay)`, all `h` disks reside on
the third peg — which holds exactly `startingCol h = [h, h-1, …, 1]`, read
bottom to top, so sizes increase from top (`1`) to bottom (`h`) — and the
first and second pegs are empty. -/
theorem solve_final_state (h d : Nat) :
    Tower.solve (Tower.new h d) =
      some { height := h, print_delay := d,
             state := fun i => if i = 2 then startingCol h else [] } ∧
    (startingCol h).length = h ∧
    List.Pairwise (fun x y => y < x) (startingCol h) ∧
    (startingCol h).head? = (if h = 0 then none else some h) ∧
    (startingCol h).getLast? = (if h = 0 then none else some 1) := by
  obtain ⟨t', e, eh, ed, es1, es3, es2⟩ := solve_run h d
  have hstate : t'.state = fun i => if i = 2 then startingCol h else [] := by
    funext i
    fin_cases i
    · simpa [Column.get_value] using es1
    · simpa [Column.get_value] using es2
    · simpa [Column.get_value] using es3
  have ht : t' = Tower.mk h d (fun i => if i = 2 then startingCol h else []) :=
    Tower.ext eh ed hstate
  exact ⟨ht ▸ e, startingCol_length h, startingCol_pairwise h,
    startingCol_head? h, startingCol_getLast? h⟩

/-- The fresh tower is well-stacked. -/
theorem new_towerOrdered (h d : Nat) : towerOrdered (Tower.new h d) := by
  intro i
  by_cases hi : i = 0
  · subst hi
    simpa [Tower.new, pegOrdered] using startingCol_pairwise h
  · simp [Tower.new, pegOrdered, hi]

/-- Every prefix of the full solve run executes successfully and leaves
every peg well-stacked. -/
theorem run_prefix_ordered (h d : Nat) (pre suf : List (Column × Column))
    (hsplit : hanoiMoves h Column.First Column.Third Column.Second = pre ++ suf) :
    ∃ t', applyMoves (Tower.new h d) pre = some t' ∧ towerOrdered t' := by
  refine hanoi_run_ordered h Column.First Column.Third Column.Second (Tower.new h d)
    [] (startingCol h) (by decide) (by decide) (by decide) (startingCol_length h)
    (by simp [Tower.new, Column.get_value]) (new_towerOrdered h d) ?_ ?_ pre suf hsplit
  · intro x hx y hy
    simp [Tower.new, Column.get_value] at hy
  · intro x hx y hy
    simp [Tower.new, Column.get_value] at hy

/-- Every move the recursion emits goes between two distinct pegs. -/
theorem hanoiMoves_pair_ne (n : Nat) (s tg a : Column)
    (hst : s.get_value ≠ tg.get_value) (hsa : s.get_value ≠ a.get_value)
    (hta : tg.get_value ≠ a.get_value) :
    ∀ p ∈ hanoiMoves n s tg a, p.1.get_value ≠ p.2.get_value := by
  induction n generalizing s tg a with
  | zero => simp [hanoiMoves]
  | succ m ih =>
      intro p hp
      simp only [hanoiMoves, List.append_assoc, List.singleton_append, List.mem_append,
        List.mem_cons] at hp
      rcases hp with hp | rfl | hp
      · exact ih s a tg hsa hst (Ne.symm hta) p hp
      · exact hst
      · exact ih a tg s (Ne.symm hta) (Ne.symm hsa) (Ne.symm hst) p hp

theorem eq_dropLast_concat_of_getLast? (l : List Nat) (v : Nat)
    (hv : l.getLast? = some v) : l = l.dropLast ++ [v] := by
  induction l using List.reverseRecOn with
  | nil => simp at hv
  | append_singleton xs x _ =>
      rw [List.getLast?_concat] at hv
      obtain rfl := Option.some.inj hv
      simp

/-- `move_peg` on an empty source peg is the `unwrap` panic (`none`). -/
theorem move_peg_empty_none (t : Tower) (f g : Column)
    (hf : t.state f.get_value = []) : t.move_peg f g = none := by
  simp [Tower.move_peg, hf]

/-- Around each single move of the run: the state `t'` before it, the moved
disk `v` (the top of the source peg), success of the move, the exact
pop/push effect, and legality of the destination. -/
theorem run_step (h d : Nat) (pre suf : List (Column × Column)) (f g : Column)
    (hsplit : hanoiMoves h Column.First Column.Third Column.Second
      = pre ++ (f, g) :: suf) :
    ∃ t' t'' v, applyMoves (Tower.new h d) pre = some t' ∧
      (t'.state f.get_value).getLast? = some v ∧
      f.get_value ≠ g.get_value ∧
      t'.move_peg f g = some t'' ∧
      t''.state f.get_value = (t'.state f.get_value).dropLast ∧
      t''.state g.get_value = t'.state g.get_value ++ [v] ∧
      (∀ i, i ≠ f.get_value → i ≠ g.get_value → t''.state i = t'.state i) ∧
      (t'.state g.get_value = [] ∨
        ∃ y, (t'.state g.get_value).getLast? = some y ∧ v < y) := by
  have hsplit2 : hanoiMoves h Column.First Column.Third Column.Second
      = (pre ++ [(f, g)]) ++ suf := by
    rw [hsplit, List.append_assoc, List.singleton_append]
  obtain ⟨t', e', hinv'⟩ := run_prefix_ordered h d pre ((f, g) :: suf) hsplit
  obtain ⟨t'', e'', hinv''⟩ := run_prefix_ordered h d (pre ++ [(f, g)]) suf hsplit2
  rw [applyMoves_append, e', Option.some_bind] at e''
  simp only [applyMoves] at e''
  have hfg : f.get_value ≠ g.get_value := by
    have hmem : (f, g) ∈ hanoiMoves h Column.First Column.Third Column.Second := by
      rw [hsplit]
      exact List.mem_append_right _ (List.mem_cons_self _ _)
    exact hanoiMoves_pair_ne h Column.First Column.Third Column.Second
      (by decide) (by decide) (by decide) (f, g) hmem
  cases hv : (t'.state f.get_value).getLast? with
  | none =>
      rw [move_peg_empty_none t' f g ?_] at e''
      · simp at e''
      · cases hnil : t'.state f.get_value with
        | nil => rfl
        | cons z zs => rw [hnil] at hv; simp at hv
  | some v =>
      have hsf : t'.state f.get_value = (t'.state f.get_value).dropLast ++ [v] :=
        eq_dropLast_concat_of_getLast? _ _ hv
      obtain ⟨u, eu, uh, ud, ufs, ugs, uo⟩ :=
        move_peg_some t' f g hfg ((t'.state f.get_value).dropLast) v hsf
      rw [eu] at e''
      have e3 : some u = some t'' := by simpa [applyMoves] using e''
      obtain rfl := Option.some.inj e3
      refine ⟨t', u, v, e', hv, hfg, eu, ufs, ugs, uo, ?_⟩
      by_cases hg : t'.state g.get_value = []
      · exact Or.inl hg
      · right
        have hne : t'.state g.get_value ≠ [] := hg
        refine ⟨(t'.state g.get_value).getLast hne, List.getLast?_eq_getLast _ hne, ?_⟩
        have hpair : List.Pairwise (fun x y => y < x)
            (t'.state g.get_value ++ [v]) := by
          have := hinv'' g.get_value
          rwa [pegOrdered, ugs] at this
        have hcross := (List.pairwise_append.mp hpair).2.2
        exact hcross _ (List.getLast_mem hne) v (List.mem_singleton.mpr rfl)

/-- C3: Throughout a run of `solve` started from `new(height, delay)` —
before, after, and between every intermediate move (i.e. after every prefix
of the emitted move sequence) — every peg's disk sizes are strictly
decreasing from bottom to top, so no disk ever sits under a smaller disk. -/
theorem solve_preserves_order (h d : Nat) (pre suf : List (Column × Column))
    (hsplit : hanoiMoves h Column.First Column.Third Column.Second = pre ++ suf) :
    Tower.solve (Tower.new h d) =
      applyMoves (Tower.new h d) (hanoiMoves h Column.First Column.Third Column.Second) ∧
    ∃ t', applyMoves (Tower.new h d) pre = some t' ∧ towerOrdered t' :=
  ⟨move_stack_eq_applyMoves h Column.First Column.Third Column.Second (Tower.new h d),
   run_prefix_ordered h d pre suf hsplit⟩

theorem solve_preserves_order_witness :
    Tower.solve (Tower.new 2 0) =
      applyMoves (Tower.new 2 0) (hanoiMoves 2 Column.First Column.Third Column.Second) ∧
    ∃ t', applyMoves (Tower.new 2 0) [(Column.First, Column.Second)] = some t' ∧
      towerOrdered t' :=
  solve_preserves_order 2 0 [(Column.First, Column.Second)]
    [(Column.First, Column.Third), (Column.Second, Column.Third)] (by decide)

/-- C4: Every move performed during `solve` relocates exactly the topmost
disk of its source peg (pop of the last element, push onto the destination,
all other pegs untouched), and at that moment the destination peg is either
empty or its topmost disk is strictly larger than the disk being moved. -/
theorem moves_relocate_top_valid (h d : Nat) (pre suf : List (Column × Column))
    (f g : Column)
    (hsplit : hanoiMoves h Column.First Column.Third Column.Second
      = pre ++ (f, g) :: suf) :
    ∃ t' t'' v, applyMoves (Tower.new h d) pre = some t' ∧
      (t'.state f.get_value).getLast? = some v ∧
      t'.move_peg f g = some t'' ∧
      t''.state f.get_value = (t'.state f.get_value).dropLast ∧
      t''.state g.get_value = t'.state g.get_value ++ [v] ∧
      (∀ i, i ≠ f.get_value → i ≠ g.get_value → t''.state i = t'.state i) ∧
      (t'.state g.get_value = [] ∨
        ∃ y, (t'.state g.get_value).getLast? = some y ∧ v < y) := by
  obtain ⟨t', t'', v, e1, e2, e3, e4, e5, e6, e7, e8⟩ := run_step h d pre suf f g hsplit
  exact ⟨t', t'', v, e1, e2, e4, e5, e6, e7, e8⟩

theorem moves_relocate_top_valid_witness :
    ∃ t' t'' v, applyMoves (Tower.new 1 0) [] = some t' ∧
      (t'.state Column.First.get_value).getLast? = some v ∧
      t'.move_peg Column.First Column.Third = some t'' ∧
      t''.state Column.First.get_value = (t'.state Column.First.get_value).dropLast ∧
      t''.state Column.Third.get_value = t'.state Column.Third.get_value ++ [v] ∧
      (∀ i, i ≠ Column.First.get_value → i ≠ Column.Third.get_value →
        t''.state i = t'.state i) ∧
      (t'.state Column.Third.get_value = [] ∨
        ∃ y, (t'.state Column.Third.get_value).getLast? = some y ∧ v < y) :=
  moves_relocate_top_valid 1 0 [] [] Column.First Column.Third (by decide)

/-- C7: Invoking `move_peg` with an empty source peg is the `unwrap` panic
(modelled `none`), never a silent no-op; and during a `solve` run from
`new(height, delay)` the source peg of every move is non-empty and the move
succeeds, so the panic branch is never reached (the whole run returns
`some`). -/
theorem move_on_empty_peg_fatal :
    (∀ (t : Tower) (f g : Column), t.state f.get_value = [] → t.move_peg f g = none) ∧
    (∀ (h d : Nat) (pre suf : List (Column × Column)) (f g : Column),
        hanoiMoves h Column.First Column.Third Column.Second = pre ++ (f, g) :: suf →
        ∃ t', applyMoves (Tower.new h d) pre = some t' ∧
          t'.state f.get_value ≠ [] ∧ (t'.move_peg f g).isSome) ∧
    (∀ h d : Nat, (Tower.solve (Tower.new h d)).isSome) := by
  refine ⟨move_peg_empty_none, ?_, ?_⟩
  · intro h d pre suf f g hsplit
    obtain ⟨t', t'', v, e1, e2, e3, e4, e5, e6, e7, e8⟩ := run_step h d pre suf f g hsplit
    refine ⟨t', e1, ?_, ?_⟩
    · intro hnil
      rw [hnil] at e2
      simp at e2
    · rw [e4]
      rfl
  · intro h d
    obtain ⟨t', e, -⟩ := solve_run h d
    simp [e]

theorem move_on_empty_peg_fatal_witness :
    (Tower.new 0 0).move_peg Column.Second Column.First = none ∧
    (∃ t', applyMoves (Tower.new 1 0) [] = some t' ∧
      t'.state Column.First.get_value ≠ [] ∧
      (t'.move_peg Column.First Column.Third).isSome) ∧
    (Tower.solve (Tower.new 0 0)).isSome :=
  ⟨move_on_empty_peg_fatal.1 (Tower.new 0 0) Column.Second Column.First (by decide),
   move_on_empty_peg_fatal.2.1 1 0 [] [] Column.First Column.Third (by decide),
   move_on_empty_peg_fatal.2.2 0 0⟩

/-- A single successful `move_peg` permutes the combined disk population:
it only relocates one disk, never changes a size. -/
theorem move_peg_perm (t t' : Tower) (f g : Column) (e : t.move_peg f g = some t') :
    (t'.state 0 ++ t'.state 1 ++ t'.state 2).Perm
      (t.state 0 ++ t.state 1 ++ t.state 2) := by
  have e' := e
  simp only [Tower.move_peg] at e'
  cases hv : (t.state f.get_value).getLast? with
  | none =>
      rw [hv] at e'
      simp at e'
  | some v =>
      rw [hv] at e'
      obtain rfl := Option.some.inj e'
      obtain ⟨D, hD⟩ : ∃ D, t.state f.get_value = D ++ [v] :=
        ⟨_, eq_dropLast_concat_of_getLast? _ _ hv⟩
      have hD2 : (t.state f.get_value).dropLast = D := by rw [hD]; simp
      refine List.perm_iff_count.mpr fun x => ?_
      cases f <;> cases g <;>
        simp only [Column.get_value] at hD hD2 ⊢ <;>
        rw [hD2, hD] <;>
        simp [List.count_append, List.count_cons] <;>
        omega

/-- Running any move list preserves the combined disk population up to
permutation. -/
theorem applyMoves_perm (pre : List (Column × Column)) (t t' : Tower)
    (e : applyMoves t pre = some t') :
    (t'.state 0 ++ t'.state 1 ++ t'.state 2).Perm
      (t.state 0 ++ t.state 1 ++ t.state 2) := by
  induction pre generalizing t with
  | nil =>
      simp only [applyMoves] at e
      obtain rfl := Option.some.inj e
      exact List.Perm.refl _
  | cons p rest ih =>
      obtain ⟨f, g⟩ := p
      simp only [applyMoves] at e
      cases hm : t.move_peg f g with
      | none => rw [hm] at e; simp at e
      | some u =>
          rw [hm, Option.some_bind] at e
          exact (ih u e).trans (move_peg_perm t u f g hm)

/-- C5: In every state reachable during a run started from
`new(height, delay)` (i.e. after any prefix of the move sequence), the
disks across the three pegs are a permutation of the starting column,
which contains the sizes `1..=height` exactly once each; moves only
relocate disks, never change a size. -/
theorem disks_conserved (h d : Nat) (pre suf : List (Column × Column))
    (hsplit : hanoiMoves h Column.First Column.Third Column.Second = pre ++ suf) :
    ∃ t', applyMoves (Tower.new h d) pre = some t' ∧
      (t'.state 0 ++ t'.state 1 ++ t'.state 2).Perm (startingCol h) ∧
      (∀ x, x ∈ startingCol h ↔ 1 ≤ x ∧ x ≤ h) ∧
      (startingCol h).Nodup ∧
      (startingCol h).length = h := by
  obtain ⟨t', e, -⟩ := run_prefix_ordered h d pre suf hsplit
  refine ⟨t', e, ?_, fun x => mem_startingCol h x, ?_, startingCol_length h⟩
  · have hp := applyMoves_perm pre (Tower.new h d) t' e
    simpa [Tower.new] using hp
  · exact List.Pairwise.imp (fun hab => ne_of_gt hab) (startingCol_pairwise h)

theorem disks_conserved_witness :
    ∃ t', applyMoves (Tower.new 2 0) [(Column.First, Column.Second)] = some t' ∧
      (t'.state 0 ++ t'.state 1 ++ t'.state 2).Perm (startingCol 2) ∧
      (∀ x, x ∈ startingCol 2 ↔ 1 ≤ x ∧ x ≤ 2) ∧
      (startingCol 2).Nodup ∧
      (startingCol 2).length = 2 :=
  disks_conserved 2 0 [(Column.First, Column.Second)]
    [(Column.First, Column.Third), (Column.Second, Column.Third)] (by decide)

/-- C6: `new(height, delay)` puts disks `height, height-1, …, 1` on the
first peg (largest at the bottom, size-1 disk on top) and leaves the second
and third pegs empty; `new(0, delay)` yields three empty pegs. -/
theorem new_builds_initial_tower (h d : Nat) :
    (Tower.new h d).state 0 = startingCol h ∧
    (Tower.new h d).state 1 = [] ∧
    (Tower.new h d).state 2 = [] ∧
    (Tower.new h d).height = h ∧
    (Tower.new h d).print_delay = d ∧
    startingCol h = (List.range h).map (fun i => h - i) ∧
    (startingCol h).length = h ∧
    List.Pairwise (fun x y => y < x) (startingCol h) ∧
    (startingCol h).head? = (if h = 0 then none else some h) ∧
    (startingCol h).getLast? = (if h = 0 then none else some 1) ∧
    (∀ i : Fin 3, (Tower.new 0 d).state i = []) := by
  refine ⟨by simp [Tower.new], by simp [Tower.new], by simp [Tower.new], rfl, rfl, rfl,
    startingCol_length h, startingCol_pairwise h, startingCol_head? h,
    startingCol_getLast? h, ?_⟩
  intro i
  fin_cases i <;> simp [Tower.new, startingCol]

/-- C9 counterexample: at height 33 the `u32` computation
`2u32.pow(height) - 1` wraps (release semantics; a debug build panics on the
overflow instead), so the reported count `4294967295` differs from the
actual number of single-disk moves `2^33 − 1 = 8589934591`. -/
theorem completed_moves_overflow :
    completedMoves 33 = 4294967295 ∧
    (hanoiMoves 33 Column.First Column.Third Column.Second).length = 8589934591 ∧
    completedMoves 33 ≠ (hanoiMoves 33 Column.First Column.Third Column.Second).length := by
  have hlen := hanoiMoves_length 33 Column.First Column.Third Column.Second
  have h1 : completedMoves 33 = 4294967295 := by
    unfold completedMoves pow2_u32
    norm_num
  have h2 : (hanoiMoves 33 Column.First Column.Third Column.Second).length
      = 8589934591 := by
    rw [hlen]; norm_num
  exact ⟨h1, h2, by rw [h1, h2]; norm_num⟩

/-- C9 (amended): for every height `≤ 32` the count reported by the
completion message equals `2^height − 1`, which is exactly the number of
single-disk moves of the run (and the run completes); the default
invocation (only the program name) yields delay 100, height 6, loglevel
`Minimal`, whose summary is exactly `"Completed in 63 moves"`.  For larger
heights the `u32` power wraps, see the counterexample. -/
theorem completed_message_correct (h d : Nat) (hh : h ≤ 32) (progName : String) :
    completedMoves h = 2 ^ h - 1 ∧
    completedMoves h = (hanoiMoves h Column.First Column.Third Column.Second).length ∧
    (Tower.solve (Tower.new h d)).isSome ∧
    get_parameters [progName] = some (DELAY_MS, TOWER_SIZE, LogLevel.Minimal) ∧
    DELAY_MS = 100 ∧ TOWER_SIZE = 6 ∧
    completedMessage TOWER_SIZE = "Completed in 63 moves" ∧
    summaryLines TOWER_SIZE DELAY_MS LogLevel.Minimal = ["Completed in 63 moves"] := by
  have hp : completedMoves h = 2 ^ h - 1 := by
    unfold completedMoves pow2_u32
    have h32 : (2 : Nat) ^ 32 = 4294967296 := by norm_num
    rcases Nat.lt_or_ge h 32 with hlt | hge
    · have hx : 2 ^ h < 2 ^ 32 := Nat.pow_lt_pow_right (by norm_num) hlt
      have hx1 : 1 ≤ 2 ^ h := Nat.one_le_two_pow
      rw [Nat.mod_eq_of_lt hx]
      rw [h32] at hx ⊢
      omega
    · have h32' : h = 32 := le_antisymm hh hge
      subst h32'
      norm_num
  refine ⟨hp, ?_, ?_, ?_, rfl, rfl, ?_, ?_⟩
  · rw [hp, hanoiMoves_length]
  · obtain ⟨t', e, -⟩ := solve_run h d
    simp [e]
  · simp [get_parameters]
  · rfl
  · rfl

theorem completed_message_correct_witness :
    completedMoves 6 = 2 ^ 6 - 1 ∧
    completedMoves 6 = (hanoiMoves 6 Column.First Column.Third Column.Second).length ∧
    (Tower.solve (Tower.new 6 0)).isSome ∧
    get_parameters ["hanoi"] = some (DELAY_MS, TOWER_SIZE, LogLevel.Minimal) ∧
    DELAY_MS = 100 ∧ TOWER_SIZE = 6 ∧
    completedMessage TOWER_SIZE = "Completed in 63 moves" ∧
    summaryLines TOWER_SIZE DELAY_MS LogLevel.Minimal = ["Completed in 63 moves"] :=
  completed_message_correct 6 0 (by norm_num) "hanoi"
